import Mathlib

/-
Verification of the dense-tensor kernels of `src/operators.rs`
(`gather`, `rope`, `masked_softmax`, `rms_norm`, `matmul_transb`,
`random_sample`) against their natural-language specification.

Modelling conventions:
* A tensor is its flat row-major buffer (a `List`) together with the
  dimension sizes the kernel reads from its shape; the kernel asserts
  on shapes become explicit `Option`-returning checked wrappers
  (`none` models the fatal abort of a failed Rust assert or a slice
  bounds-check panic).
* `f32` arithmetic is idealised as real arithmetic (`ℝ`); `powf`,
  `sqrt`, `exp`, `sin_cos` become `Real.rpow`, `Real.sqrt`,
  `Real.exp`, `Real.sin`/`Real.cos`.
* For the one claim about IEEE-754 NaN propagation the element type is
  instead `Option ℝ` with `none` playing the role of NaN, absorbed by
  both addition and multiplication, which matches IEEE-754 on the
  operations involved.
-/

namespace Ops

/-! ## gather -/

/-- The slice `table[idx*dim .. idx*dim+dim)` of the flat table buffer:
the source row `&table.data()[indices.data()[i] as usize * dim..][..dim]`. -/
def gatherRow {α : Type} (table : List α) (dim idx : ℕ) : List α :=
  (table.drop (idx * dim)).take dim

/-- Kernel `gather`, success path: for each index in order, copy the
corresponding `dim`-length table row into the output; the output is
exactly the concatenation of the selected rows (the prior contents of
`y` are never read). -/
def gather {α : Type} (indices : List ℕ) (table : List α) (dim : ℕ) : List α :=
  (indices.map (gatherRow table dim)).flatten

/-- The row-copy loop of `gather` with the bounds behaviour of the
source: slicing `table[idx*dim..][..dim]` panics when
`idx*dim + dim` exceeds the buffer length, modelled as `none`. -/
def gatherGo {α : Type} (table : List α) (dim : ℕ) : List ℕ → Option (List α)
  | [] => some []
  | idx :: rest =>
    if idx * dim + dim ≤ table.length then
      match gatherGo table dim rest with
      | some ys => some (gatherRow table dim idx ++ ys)
      | none => none
    else none

/-- Checked `gather` with its precondition: the source asserts
`y.size() == indices.size() * dim` (with `dim = table.shape()[1]`,
the table being rank-2) before running the copy loop. -/
def gather_checked {α : Type} (ylen : ℕ) (indices : List ℕ) (table : List α)
    (dim : ℕ) : Option (List α) :=
  if ylen = indices.length * dim then gatherGo table dim indices else none

/-! ## rms_norm -/

/-- Kernel `rms_norm`, success path: one global normalisation constant
`sqrt(sum(x*x)/len + epsilon)` computed over the whole flattened
buffer, then `y[i] = w[i] * x[i] / rms` elementwise. -/
noncomputable def rms_norm (x w : List ℝ) (epsilon : ℝ) : List ℝ :=
  let sum := (x.map (fun v => v * v)).sum
  let rms := Real.sqrt (sum / (x.length : ℝ) + epsilon)
  List.zipWith (fun wi xi => wi * xi / rms) w x

/-- Checked `rms_norm` with its preconditions: the source asserts
`len == x.size()` and `len == w.size()` for `len = y.size()`. -/
noncomputable def rms_norm_checked (ylen : ℕ) (x w : List ℝ) (epsilon : ℝ) :
    Option (List ℝ) :=
  if ylen = x.length ∧ ylen = w.length then some (rms_norm x w epsilon) else none

/-! ## helper lemmas -/

lemma sum_map_eq_finset_sum {α : Type} (l : List α) (f : α → ℝ) (d : α) :
    (l.map f).sum = ∑ j ∈ Finset.range l.length, f (l.getD j d) := by
  induction l with
  | nil => simp
  | cons a t ih =>
      rw [List.map_cons, List.sum_cons, ih, List.length_cons,
        Finset.sum_range_succ']
      simp [List.getD, add_comm]

lemma gatherRow_length {α : Type} (table : List α) (dim idx : ℕ)
    (h : idx * dim + dim ≤ table.length) : (gatherRow table dim idx).length = dim := by
  simp only [gatherRow, List.length_take, List.length_drop]
  omega

lemma gatherGo_eq_some {α : Type} (table : List α) (dim : ℕ) (indices : List ℕ)
    (hin : ∀ idx ∈ indices, idx * dim + dim ≤ table.length) :
    gatherGo table dim indices = some (gather indices table dim) := by
  induction indices with
  | nil => simp [gatherGo, gather]
  | cons idx rest ih =>
      have h1 : idx * dim + dim ≤ table.length := hin idx (List.mem_cons_self idx rest)
      have h2 : ∀ j ∈ rest, j * dim + dim ≤ table.length :=
        fun j hj => hin j (List.mem_cons_of_mem idx hj)
      simp [gatherGo, h1, ih h2, gather]

lemma gather_length {α : Type} (indices : List ℕ) (table : List α) (dim : ℕ)
    (hin : ∀ idx ∈ indices, idx * dim + dim ≤ table.length) :
    (gather indices table dim).length = indices.length * dim := by
  induction indices with
  | nil => simp [gather]
  | cons idx rest ih =>
      have h1 : idx * dim + dim ≤ table.length := hin idx (List.mem_cons_self idx rest)
      have h2 : ∀ j ∈ rest, j * dim + dim ≤ table.length :=
        fun j hj => hin j (List.mem_cons_of_mem idx hj)
      simp only [gather, List.map_cons, List.flatten_cons, List.length_append,
        List.length_cons]
      rw [gatherRow_length table dim idx h1]
      have := ih h2
      simp only [gather] at this
      rw [this]
      ring

lemma gather_row_extract {α : Type} (indices : List ℕ) (table : List α) (dim : ℕ)
    (hin : ∀ idx ∈ indices, idx * dim + dim ≤ table.length) :
    ∀ i (hi : i < indices.length),
      ((gather indices table dim).drop (i * dim)).take dim
        = gatherRow table dim (indices.get ⟨i, hi⟩) := by
  induction indices with
  | nil => intro i hi; simp at hi
  | cons idx rest ih =>
      have h1 : idx * dim + dim ≤ table.length := hin idx (List.mem_cons_self idx rest)
      have h2 : ∀ j ∈ rest, j * dim + dim ≤ table.length :=
        fun j hj => hin j (List.mem_cons_of_mem idx hj)
      intro i hi
      match i with
      | 0 =>
          simp only [gather, List.map_cons, List.flatten_cons, Nat.zero_mul,
            List.drop_zero, List.get]
          exact List.take_left' (gatherRow_length table dim idx h1)
      | Nat.succ i =>
          have hi2 : i < rest.length := by
            simp only [List.length_cons] at hi; omega
          have harith : (i + 1) * dim = (gatherRow table dim idx).length + i * dim := by
            rw [gatherRow_length table dim idx h1]; ring
          simp only [gather, List.map_cons, List.flatten_cons, List.get]
          rw [harith, List.drop_append]
          exact ih h2 i hi2

/-- Claim C7: with a rank-2 table (flat buffer plus row width `dim`),
an output size equal to `indices.length * dim` (any other size fails
the assert), and every index in range for the table, `gather`
succeeds, the output has size `indices.length * dim`, each output row
`y[i*dim .. (i+1)*dim)` equals the table row `table[indices[i]]`, and
the result is built from the table rows alone, never from the prior
contents of `y`. -/
theorem gather_copies_rows {α : Type} (indices : List ℕ) (table : List α) (dim : ℕ)
    (hin : ∀ idx ∈ indices, idx * dim + dim ≤ table.length) :
    gather_checked (indices.length * dim) indices table dim
        = some (gather indices table dim)
      ∧ (gather indices table dim).length = indices.length * dim
      ∧ (∀ i (hi : i < indices.length),
          ((gather indices table dim).drop (i * dim)).take dim
            = gatherRow table dim (indices.get ⟨i, hi⟩))
      ∧ ∀ ylen, ylen ≠ indices.length * dim →
          gather_checked ylen indices table dim = none := by
  refine ⟨?_, gather_length indices table dim hin,
    gather_row_extract indices table dim hin, ?_⟩
  · simp [gather_checked, gatherGo_eq_some table dim indices hin]
  · intro ylen hne
    simp [gather_checked, hne]

/-- Witness for C7 at a concrete input: table `[10,20,30,40]` seen as
2 rows of width 2, indices `[1,0]`. -/
theorem gather_copies_rows_witness :
    gather_checked ([1,0].length * 2) [1,0] [10,20,30,40] 2
        = some (gather [1,0] [10,20,30,40] 2)
      ∧ (gather [1,0] [10,20,30,40] 2).length = [1,0].length * 2
      ∧ (∀ i (hi : i < ([1,0] : List ℕ).length),
          ((gather [1,0] [10,20,30,40] 2).drop (i * 2)).take 2
            = gatherRow [10,20,30,40] 2 (([1,0] : List ℕ).get ⟨i, hi⟩))
      ∧ ∀ ylen, ylen ≠ ([1,0] : List ℕ).length * 2 →
          gather_checked ylen [1,0] [10,20,30,40] 2 = none :=
  gather_copies_rows [1,0] [10,20,30,40] 2 (by decide)

/-- Claim C9: an out-of-range index (one with
`indices[i]*dim + dim > table.length`) makes the row-slice
bounds check fail, so the call aborts (modelled as `none`) instead of
reading out of bounds or producing an output. -/
theorem gather_oob_aborts {α : Type} (ylen : ℕ) (indices : List ℕ) (table : List α)
    (dim : ℕ) (hbad : ∃ idx ∈ indices, table.length < idx * dim + dim) :
    gather_checked ylen indices table dim = none := by
  have hgo : gatherGo table dim indices = none := by
    induction indices with
    | nil => simp at hbad
    | cons idx rest ih =>
        rcases hbad with ⟨j, hj, hjbad⟩
        rcases List.mem_cons.mp hj with rfl | hjrest
        · simp [gatherGo, not_le.mpr hjbad]
        · by_cases hidx : idx * dim + dim ≤ table.length
          · simp [gatherGo, hidx, ih ⟨j, hjrest, hjbad⟩]
          · simp [gatherGo, hidx]
  unfold gather_checked
  split <;> simp [hgo]

/-- Witness for C9: index 5 into a 2-by-2 table aborts. -/
theorem gather_oob_aborts_witness :
    gather_checked 2 [5] ([10,20,30,40] : List ℕ) 2 = none :=
  gather_oob_aborts 2 [5] [10,20,30,40] 2 (by decide)

/-- Claim C1 (code bug): the call of the testsuite,
`rms_norm(y of size 4, x = [1,2,3,4], w = [1,2], epsilon = 1e-6)`,
does not succeed: the source asserts `len == w.size()` with
`len = 4` and `w.size() = 2`, so the call aborts instead of producing
the per-row-normalised values the test expects. -/
theorem rms_norm_test_call_aborts :
    rms_norm_checked 4 [1,2,3,4] [1,2] (1e-6) = none := by
  simp [rms_norm_checked]

/-- Claim C5: `rms_norm` demands that `y`, `x` and `w` all have one
total size (any mismatch aborts), and each output element is
`w[i] * x[i] / sqrt(mean of the squares of the whole flattened x
+ epsilon)` with one global constant. -/
theorem rms_norm_global_formula (x w : List ℝ) (epsilon : ℝ)
    (hw : w.length = x.length) :
    ((rms_norm x w epsilon).length = x.length
      ∧ ∀ i, i < x.length →
          (rms_norm x w epsilon).getD i 0
            = w.getD i 0 * x.getD i 0 /
              Real.sqrt ((∑ j ∈ Finset.range x.length, x.getD j 0 * x.getD j 0)
                / (x.length : ℝ) + epsilon))
      ∧ ∀ (ylen : ℕ) (x2 w2 : List ℝ), ¬ (ylen = x2.length ∧ ylen = w2.length) →
          rms_norm_checked ylen x2 w2 epsilon = none := by
  constructor
  · constructor
    · simp [rms_norm, List.length_zipWith, hw]
    · intro i hi
      have hiw : i < w.length := by omega
      have hiz : i < (rms_norm x w epsilon).length := by
        simp [rms_norm, List.length_zipWith, hw]; omega
      rw [List.getD_eq_getElem _ _ hiz, List.getD_eq_getElem _ _ hiw,
        List.getD_eq_getElem _ _ hi]
      simp only [rms_norm, List.getElem_zipWith]
      have hsum : (List.map (fun v => v * v) x).sum
          = ∑ j ∈ Finset.range x.length, x.getD j 0 * x.getD j 0 := by
        simpa using sum_map_eq_finset_sum x (fun v => v * v) 0
      simp only [hsum]
  · intro ylen x2 w2 hne
    simp only [rms_norm_checked, if_neg hne]

/-- Witness for C5 at `x = [1,2]`, `w = [3,4]`, `epsilon = 0`. -/
theorem rms_norm_global_formula_witness :
    (((rms_norm [1,2] [3,4] 0).length = ([1,2] : List ℝ).length
      ∧ ∀ i, i < ([1,2] : List ℝ).length →
          (rms_norm [1,2] [3,4] 0).getD i 0
            = ([3,4] : List ℝ).getD i 0 * ([1,2] : List ℝ).getD i 0 /
              Real.sqrt ((∑ j ∈ Finset.range ([1,2] : List ℝ).length,
                  ([1,2] : List ℝ).getD j 0 * ([1,2] : List ℝ).getD j 0)
                / (([1,2] : List ℝ).length : ℝ) + 0))
      ∧ ∀ (ylen : ℕ) (x2 w2 : List ℝ), ¬ (ylen = x2.length ∧ ylen = w2.length) →
          rms_norm_checked ylen x2 w2 0 = none) :=
  rms_norm_global_formula [1,2] [3,4] 0 (by simp)

/-! ## matmul_transb -/

/-- Kernel `matmul_transb`, success path: for every output cell `(i, j)` of
the `m` by `n` result, `C[i,j] = beta * C[i,j] + alpha * sum over l of
A[i,l] * B[j,l]`, with `A` of row width `k` and `B` of row width `k`
read untransposed. The flat cell order matches the row-major loop of
the source. -/
noncomputable def matmul_transb (m n k : ℕ) (c a b : List ℝ) (beta alpha : ℝ) :
    List ℝ :=
  (List.range (m * n)).map (fun idx =>
    let i := idx / n
    let j := idx % n
    beta * c.getD idx 0 + alpha *
      ((List.range k).map (fun l => a.getD (i * k + l) 0 * b.getD (j * k + l) 0)).sum)

/-- Checked `matmul_transb` with its preconditions: the source asserts that
all three tensors are rank-2 (their shapes are the explicit pairs
here) with `c_shape[0] == a_shape[0]`, `c_shape[1] == b_shape[0]` and
`a_shape[1] == b_shape[1]`. -/
noncomputable def matmul_transb_checked (cm cn am ak bm bk : ℕ)
    (c a b : List ℝ) (beta alpha : ℝ) : Option (List ℝ) :=
  if cm = am ∧ cn = bm ∧ ak = bk then
    some (matmul_transb cm cn ak c a b beta alpha)
  else none

lemma getD_map_range {β : Type} (mn idx : ℕ) (f : ℕ → β) (d : β) (h : idx < mn) :
    ((List.range mn).map f).getD idx d = f idx := by
  have hl : idx < ((List.range mn).map f).length := by
    simpa using h
  rw [List.getD_eq_getElem _ _ hl, List.getElem_map, List.getElem_range]

lemma cell_index_lt {m n i j : ℕ} (hi : i < m) (hj : j < n) : i * n + j < m * n := by
  calc i * n + j < i * n + n := by omega
    _ = (i + 1) * n := by ring
    _ ≤ m * n := Nat.mul_le_mul_right n hi

lemma cell_index_div {n i j : ℕ} (hj : j < n) : (i * n + j) / n = i := by
  rw [add_comm, Nat.add_mul_div_right _ _ (by omega : 0 < n),
    Nat.div_eq_of_lt hj]
  omega

lemma cell_index_mod {n i j : ℕ} (hj : j < n) : (i * n + j) % n = j := by
  rw [add_comm, Nat.add_mul_mod_self_right, Nat.mod_eq_of_lt hj]

lemma sum_map_range (k : ℕ) (g : ℕ → ℝ) :
    ((List.range k).map g).sum = ∑ l ∈ Finset.range k, g l := by
  rw [sum_map_eq_finset_sum (List.range k) g 0]
  rw [List.length_range]
  refine Finset.sum_congr rfl (fun l hl => ?_)
  have hlk : l < k := Finset.mem_range.mp hl
  have : (List.range k).getD l 0 = l := by
    rw [List.getD_eq_getElem _ _ (by simpa using hlk), List.getElem_range]
  rw [this]

/-- Claim C6: under the rank and shape preconditions (any violation
aborts), every output cell of `matmul_transb` is
`beta * C_old[i,j] + alpha * sum over l in [0,k) of A[i,l] * B[j,l]`;
at the concrete test input `C = [1,2,3,4]` (2 by 2),
`A = B = [1,2,3,4,5,6]` (2 by 3), `beta = alpha = 1`, the result is
exactly `[15, 34, 35, 81]` (hence within tolerance 1e-3 of it). -/
theorem matmul_transb_cells (m n k : ℕ) (c a b : List ℝ) (beta alpha : ℝ)
    (_hm : 0 < m) (_hn : 0 < n) :
    (∀ i j, i < m → j < n →
        (matmul_transb m n k c a b beta alpha).getD (i * n + j) 0
          = beta * c.getD (i * n + j) 0 + alpha *
              ∑ l ∈ Finset.range k, a.getD (i * k + l) 0 * b.getD (j * k + l) 0)
      ∧ (∀ cm cn am ak bm bk : ℕ, ¬ (cm = am ∧ cn = bm ∧ ak = bk) →
          matmul_transb_checked cm cn am ak bm bk c a b beta alpha = none)
      ∧ matmul_transb_checked m n m k n k c a b beta alpha
          = some (matmul_transb m n k c a b beta alpha)
      ∧ matmul_transb 2 2 3 [1,2,3,4] [1,2,3,4,5,6] [1,2,3,4,5,6] 1 1
          = [15, 34, 35, 81] := by
  refine ⟨?_, ?_, ?_, ?_⟩
  · intro i j hi hj
    unfold matmul_transb
    rw [getD_map_range (m * n) (i * n + j) _ 0 (cell_index_lt hi hj)]
    simp only [cell_index_div hj, cell_index_mod hj, sum_map_range]
  · intro cm cn am ak bm bk hne
    simp only [matmul_transb_checked, if_neg hne]
  · simp [matmul_transb_checked]
  · show (List.range (2 * 2)).map _ = _
    norm_num [List.range_succ, List.getD, List.getD_cons_succ]

/-- Witness for C6 at `m = n = 2`, `k = 3` with the test tensors. -/
theorem matmul_transb_cells_witness :
    ((∀ i j, i < 2 → j < 2 →
        (matmul_transb 2 2 3 [1,2,3,4] [1,2,3,4,5,6] [1,2,3,4,5,6] 1 1).getD (i * 2 + j) 0
          = 1 * ([1,2,3,4] : List ℝ).getD (i * 2 + j) 0 + 1 *
              ∑ l ∈ Finset.range 3, ([1,2,3,4,5,6] : List ℝ).getD (i * 3 + l) 0 *
                ([1,2,3,4,5,6] : List ℝ).getD (j * 3 + l) 0)
      ∧ (∀ cm cn am ak bm bk : ℕ, ¬ (cm = am ∧ cn = bm ∧ ak = bk) →
          matmul_transb_checked cm cn am ak bm bk [1,2,3,4] [1,2,3,4,5,6]
            [1,2,3,4,5,6] 1 1 = none)
      ∧ matmul_transb_checked 2 2 2 3 2 3 [1,2,3,4] [1,2,3,4,5,6] [1,2,3,4,5,6] 1 1
          = some (matmul_transb 2 2 3 [1,2,3,4] [1,2,3,4,5,6] [1,2,3,4,5,6] 1 1)
      ∧ matmul_transb 2 2 3 [1,2,3,4] [1,2,3,4,5,6] [1,2,3,4,5,6] 1 1
          = [15, 34, 35, 81]) :=
  matmul_transb_cells 2 2 3 [1,2,3,4] [1,2,3,4,5,6] [1,2,3,4,5,6] 1 1
    (by decide) (by decide)

/-! ## matmul_transb over IEEE-like values (NaN propagation) -/

/-- Carrier of `f32` values for the NaN-propagation claim: `some x` is a finite
value, `none` is NaN. -/
def FP : Type := Option ℝ

/-- Addition of IEEE-754 values restricted to this carrier: NaN absorbs. -/
def fpAdd : FP → FP → FP
  | some x, some y => some (x + y)
  | _, _ => none

/-- Multiplication of IEEE-754 values restricted to this carrier: NaN absorbs,
in particular `0 * NaN = NaN`. -/
def fpMul : FP → FP → FP
  | some x, some y => some (x * y)
  | _, _ => none

/-- The inner product loop `sum += a[i*k+l] * b[j*k+l]` of
`matmul_transb`, starting from `0.0`. -/
def fpDotRow (k : ℕ) (a b : List FP) (i j : ℕ) : FP :=
  ((List.range k).map (fun l => fpMul (a.getD (i * k + l) none)
    (b.getD (j * k + l) none))).foldl fpAdd (some 0)

/-- Kernel `matmul_transb` on IEEE-like values: every cell is computed as
`beta * c[i*n+j] + alpha * sum`, with no special case for
`beta == 0`, exactly as the source loop writes
`_c[i * n + j] = beta * _c[i * n + j] + alpha * sum`. -/
def matmul_transb_fp (m n k : ℕ) (c a b : List FP) (beta alpha : FP) : List FP :=
  (List.range (m * n)).map (fun idx =>
    let i := idx / n
    let j := idx % n
    fpAdd (fpMul beta (c.getD idx none)) (fpMul alpha (fpDotRow k a b i j)))

/-- Claim C10: the prior value of every cell of `C` enters the update
even when `beta = 0`; a NaN stored in `C[i,j]` therefore makes the
output cell NaN although `beta = 0`, because `0 * NaN = NaN` and
`NaN + x = NaN`. -/
theorem matmul_transb_beta_zero_reads_c (m n k : ℕ) (c a b : List FP)
    (alpha : FP) (i j : ℕ) (hi : i < m) (hj : j < n)
    (hnan : c.getD (i * n + j) none = none) :
    (matmul_transb_fp m n k c a b (some 0) alpha).getD (i * n + j) none = none := by
  unfold matmul_transb_fp
  rw [getD_map_range (m * n) (i * n + j) _ none (cell_index_lt hi hj)]
  simp only [hnan]
  rfl

/-- Witness for C10: a 1-by-1 `C` holding NaN, `beta = 0`,
`alpha = 1`, finite `A` and `B`. -/
theorem matmul_transb_beta_zero_reads_c_witness :
    (matmul_transb_fp 1 1 1 [none] [some 1] [some 1] (some 0) (some 1)).getD
      (0 * 1 + 0) none = none :=
  matmul_transb_beta_zero_reads_c 1 1 1 [none] [some 1] [some 1] (some 1) 0 0
    (by decide) (by decide) rfl

/-! ## rope -/

/-- The rotation angle of `rope`:
`freq = pos as f32 / theta.powf((i * 2) as f32 / d as f32)` with
`pos = start_pos + tok` (the power is the real power `powf`). -/
noncomputable def ropeFreq (startPos tok d i : ℕ) (theta : ℝ) : ℝ :=
  ((startPos + tok : ℕ) : ℝ) / theta ^ (((i * 2 : ℕ) : ℝ) / (d : ℝ))

/-- The value written by `rope` at flat offset `idx` of a
`(seq_len, n_heads, d)` tensor. Offsets whose position inside the
head is a first-half index `i < d/2` receive
`a*cos - b*sin`; partner offsets (`d/2 ≤ rem < d/2 + d/2`) receive
`b*cos + a*sin`; for odd `d` the final offset of each head is
untouched by the loop. Every read is from the original buffer: the
loop updates each disjoint pair from the values it read before
writing. -/
noncomputable def ropeAt (nHeads d startPos : ℕ) (theta : ℝ) (data : List ℝ)
    (idx : ℕ) : ℝ :=
  let tok := idx / (nHeads * d)
  let rem := idx % d
  if rem < d / 2 then
    let a := data.getD idx 0
    let b := data.getD (idx + d / 2) 0
    a * Real.cos (ropeFreq startPos tok d rem theta)
      - b * Real.sin (ropeFreq startPos tok d rem theta)
  else if rem < d / 2 + d / 2 then
    let b := data.getD idx 0
    let a := data.getD (idx - d / 2) 0
    b * Real.cos (ropeFreq startPos tok d (rem - d / 2) theta)
      + a * Real.sin (ropeFreq startPos tok d (rem - d / 2) theta)
  else data.getD idx 0

/-- Kernel `rope`: in-place rotation of all `(i, i + d/2)` pairs of every
token and head of a rank-3 `(seq_len, n_heads, d)` tensor. -/
noncomputable def rope (nHeads d startPos : ℕ) (theta : ℝ) (data : List ℝ) :
    List ℝ :=
  (List.range data.length).map (ropeAt nHeads d startPos theta data)

lemma rope_inner_lt {nHeads d h i : ℕ} (hh : h < nHeads) (hid : i < d) :
    h * d + i < nHeads * d := by
  calc h * d + i < h * d + d := by omega
    _ = (h + 1) * d := by ring
    _ ≤ nHeads * d := Nat.mul_le_mul_right d hh

lemma rope_base_lt {seqLen nHeads d tok h i : ℕ} (htok : tok < seqLen)
    (hh : h < nHeads) (hid : i < d) :
    tok * (nHeads * d) + h * d + i < seqLen * nHeads * d := by
  calc tok * (nHeads * d) + h * d + i = tok * (nHeads * d) + (h * d + i) := by ring
    _ < tok * (nHeads * d) + nHeads * d := by
        have := rope_inner_lt hh hid; omega
    _ = (tok + 1) * (nHeads * d) := by ring
    _ ≤ seqLen * (nHeads * d) := Nat.mul_le_mul_right _ htok
    _ = seqLen * nHeads * d := by ring

lemma rope_base_div {nHeads d tok h i : ℕ} (hh : h < nHeads) (hid : i < d) :
    (tok * (nHeads * d) + h * d + i) / (nHeads * d) = tok := by
  have he : tok * (nHeads * d) + h * d + i = tok * (nHeads * d) + (h * d + i) := by
    ring
  rw [he, cell_index_div (rope_inner_lt hh hid)]

lemma rope_base_mod {nHeads d tok h i : ℕ} (hid : i < d) :
    (tok * (nHeads * d) + h * d + i) % d = i := by
  have he : tok * (nHeads * d) + h * d + i = (tok * nHeads + h) * d + i := by ring
  rw [he, cell_index_mod hid]

/-- Claim C8: on a rank-3 `(seq_len, n_heads, d)` tensor with even
`d`, `rope` replaces each pair `(a, b)` at offsets `i` and `i + d/2`
of token `tok` and head `h` by
`(a*cos freq - b*sin freq, b*cos freq + a*sin freq)` with
`freq = (start_pos + tok) / theta^(2i/d)`; hence a zero pair stays
exactly zero, and at `freq = 0` a pair `(a, 0)` is left as `(a, 0)`. -/
theorem rope_rotates_pairs (seqLen nHeads d startPos : ℕ) (theta : ℝ)
    (data : List ℝ) (hlen : data.length = seqLen * nHeads * d)
    (heven : d % 2 = 0) (tok h i : ℕ)
    (htok : tok < seqLen) (hh : h < nHeads) (hi : i < d / 2) :
    ((rope nHeads d startPos theta data).getD (tok * (nHeads * d) + h * d + i) 0
        = data.getD (tok * (nHeads * d) + h * d + i) 0 *
            Real.cos (ropeFreq startPos tok d i theta)
          - data.getD (tok * (nHeads * d) + h * d + i + d / 2) 0 *
            Real.sin (ropeFreq startPos tok d i theta))
      ∧ ((rope nHeads d startPos theta data).getD
            (tok * (nHeads * d) + h * d + i + d / 2) 0
          = data.getD (tok * (nHeads * d) + h * d + i + d / 2) 0 *
              Real.cos (ropeFreq startPos tok d i theta)
            + data.getD (tok * (nHeads * d) + h * d + i) 0 *
              Real.sin (ropeFreq startPos tok d i theta))
      ∧ (data.getD (tok * (nHeads * d) + h * d + i) 0 = 0 →
          data.getD (tok * (nHeads * d) + h * d + i + d / 2) 0 = 0 →
          (rope nHeads d startPos theta data).getD
              (tok * (nHeads * d) + h * d + i) 0 = 0
            ∧ (rope nHeads d startPos theta data).getD
                (tok * (nHeads * d) + h * d + i + d / 2) 0 = 0)
      ∧ (ropeFreq startPos tok d i theta = 0 →
          data.getD (tok * (nHeads * d) + h * d + i + d / 2) 0 = 0 →
          (rope nHeads d startPos theta data).getD
              (tok * (nHeads * d) + h * d + i) 0
            = data.getD (tok * (nHeads * d) + h * d + i) 0
            ∧ (rope nHeads d startPos theta data).getD
                (tok * (nHeads * d) + h * d + i + d / 2) 0 = 0) := by
  have hd2 : 0 < d / 2 := by omega
  have hid : i < d := by omega
  have hid2 : i + d / 2 < d := by omega
  have h1 : (rope nHeads d startPos theta data).getD
      (tok * (nHeads * d) + h * d + i) 0
      = data.getD (tok * (nHeads * d) + h * d + i) 0 *
          Real.cos (ropeFreq startPos tok d i theta)
        - data.getD (tok * (nHeads * d) + h * d + i + d / 2) 0 *
          Real.sin (ropeFreq startPos tok d i theta) := by
    unfold rope
    rw [getD_map_range data.length _ _ 0
      (by rw [hlen]; exact rope_base_lt htok hh hid)]
    unfold ropeAt
    rw [rope_base_div hh hid, rope_base_mod hid, if_pos hi]
  have hpartner : tok * (nHeads * d) + h * d + i + d / 2
      = tok * (nHeads * d) + h * d + (i + d / 2) := by omega
  have h2 : (rope nHeads d startPos theta data).getD
      (tok * (nHeads * d) + h * d + i + d / 2) 0
      = data.getD (tok * (nHeads * d) + h * d + i + d / 2) 0 *
          Real.cos (ropeFreq startPos tok d i theta)
        + data.getD (tok * (nHeads * d) + h * d + i) 0 *
          Real.sin (ropeFreq startPos tok d i theta) := by
    unfold rope
    rw [getD_map_range data.length _ _ 0
      (by rw [hlen, hpartner]; exact rope_base_lt htok hh hid2)]
    unfold ropeAt
    rw [hpartner, rope_base_div hh hid2, rope_base_mod hid2,
      if_neg (by omega), if_pos (by omega)]
    have hsub : i + d / 2 - d / 2 = i := by omega
    have hback : tok * (nHeads * d) + h * d + (i + d / 2) - d / 2
        = tok * (nHeads * d) + h * d + i := by omega
    rw [hsub, hback]
  refine ⟨h1, h2, ?_, ?_⟩
  · intro ha hb
    rw [h1, h2, ha, hb]
    constructor <;> ring
  · intro hfreq hb
    rw [h1, h2, hfreq, hb, Real.cos_zero, Real.sin_zero]
    constructor <;> ring

/-- Witness for C8: a tensor of one token, one head, `d = 2`, data
`[3, 0]`, `start_pos = 0` (so `freq = 0` at pair index 0),
`theta = 2`. -/
theorem rope_rotates_pairs_witness :
    (((rope 1 2 0 2 [3, 0]).getD (0 * (1 * 2) + 0 * 2 + 0) 0
        = ([3, 0] : List ℝ).getD (0 * (1 * 2) + 0 * 2 + 0) 0 *
            Real.cos (ropeFreq 0 0 2 0 2)
          - ([3, 0] : List ℝ).getD (0 * (1 * 2) + 0 * 2 + 0 + 2 / 2) 0 *
            Real.sin (ropeFreq 0 0 2 0 2))
      ∧ ((rope 1 2 0 2 [3, 0]).getD (0 * (1 * 2) + 0 * 2 + 0 + 2 / 2) 0
          = ([3, 0] : List ℝ).getD (0 * (1 * 2) + 0 * 2 + 0 + 2 / 2) 0 *
              Real.cos (ropeFreq 0 0 2 0 2)
            + ([3, 0] : List ℝ).getD (0 * (1 * 2) + 0 * 2 + 0) 0 *
              Real.sin (ropeFreq 0 0 2 0 2))
      ∧ (([3, 0] : List ℝ).getD (0 * (1 * 2) + 0 * 2 + 0) 0 = 0 →
          ([3, 0] : List ℝ).getD (0 * (1 * 2) + 0 * 2 + 0 + 2 / 2) 0 = 0 →
          (rope 1 2 0 2 [3, 0]).getD (0 * (1 * 2) + 0 * 2 + 0) 0 = 0
            ∧ (rope 1 2 0 2 [3, 0]).getD (0 * (1 * 2) + 0 * 2 + 0 + 2 / 2) 0 = 0)
      ∧ (ropeFreq 0 0 2 0 2 = 0 →
          ([3, 0] : List ℝ).getD (0 * (1 * 2) + 0 * 2 + 0 + 2 / 2) 0 = 0 →
          (rope 1 2 0 2 [3, 0]).getD (0 * (1 * 2) + 0 * 2 + 0) 0
            = ([3, 0] : List ℝ).getD (0 * (1 * 2) + 0 * 2 + 0) 0
            ∧ (rope 1 2 0 2 [3, 0]).getD (0 * (1 * 2) + 0 * 2 + 0 + 2 / 2) 0 = 0)) :=
  rope_rotates_pairs 1 1 2 0 2 [3, 0] (by simp) (by decide) 0 0 0
    (by decide) (by decide) (by decide)

/-! ## masked_softmax -/

/-- The running maximum of the visible prefix of one row, exactly as
the source computes it:
`data[offset..offset+boundary].iter().fold(data[offset], max)` (the
first element is both the fold seed and part of the range). -/
noncomputable def rowMax (boundary : ℕ) (xs : List ℝ) : ℝ :=
  (xs.take boundary).foldl max xs.headI

/-- One row of `masked_softmax`: exponentiate the visible prefix
after subtracting the running maximum, divide by the prefix sum of
those exponentials, and set every position at or beyond `boundary`
to exactly `0.0`. -/
noncomputable def maskedRow (boundary : ℕ) (xs : List ℝ) : List ℝ :=
  let m := rowMax boundary xs
  let s := ((xs.take boundary).map (fun v => Real.exp (v - m))).sum
  (List.range xs.length).map (fun j =>
    if j < boundary then Real.exp (xs.getD j 0 - m) / s else 0)

/-- Kernel `masked_softmax` on the rows of the flattened buffer: row number
`idx = b * seq_len + i` uses `boundary = total_seq_len - seq_len + i + 1`
with `i = idx % seq_len`, matching the nested batch and row loops of
the source. -/
noncomputable def masked_softmax (seqLen totLen : ℕ) (rows : List (List ℝ)) :
    List (List ℝ) :=
  (List.range rows.length).map (fun idx =>
    maskedRow (totLen - seqLen + idx % seqLen + 1) (rows.getD idx []))

lemma foldl_max_le_self (l : List ℝ) : ∀ a : ℝ, a ≤ l.foldl max a := by
  induction l with
  | nil => intro a; simp
  | cons b t ih =>
      intro a
      exact le_trans (le_max_left a b) (by simpa using ih (max a b))

lemma foldl_max_le_of_mem (l : List ℝ) : ∀ (a x : ℝ), x ∈ l → x ≤ l.foldl max a := by
  induction l with
  | nil => intro a x hx; simp at hx
  | cons b t ih =>
      intro a x hx
      rcases List.mem_cons.mp hx with rfl | hxt
      · exact le_trans (le_max_right a x) (by simpa using foldl_max_le_self t (max a x))
      · simpa using ih (max a b) x hxt

lemma foldl_max_mem (l : List ℝ) : ∀ a : ℝ, l.foldl max a = a ∨ l.foldl max a ∈ l := by
  induction l with
  | nil => intro a; left; rfl
  | cons b t ih =>
      intro a
      rcases ih (max a b) with heq | hmem
      · rcases max_choice a b with hab | hab
        · left; simpa [hab] using heq
        · right
          simp only [List.foldl_cons]
          rw [heq, hab]
          exact List.mem_cons_self b t
      · right
        simp only [List.foldl_cons]
        exact List.mem_cons_of_mem b hmem

lemma getD_take {α : Type} (xs : List α) (bnd j : ℕ) (d : α) (hj : j < bnd)
    (hb : bnd ≤ xs.length) : (xs.take bnd).getD j d = xs.getD j d := by
  have hjx : j < xs.length := lt_of_lt_of_le hj hb
  have hjt : j < (xs.take bnd).length := by
    simp only [List.length_take]; omega
  rw [List.getD_eq_getElem _ _ hjt, List.getD_eq_getElem _ _ hjx]
  exact List.getElem_take xs

lemma headI_eq_getD (xs : List ℝ) (hx : xs ≠ []) : xs.headI = xs.getD 0 0 := by
  cases xs with
  | nil => exact absurd rfl hx
  | cons a t => rfl

lemma rowMax_is_ub (boundary : ℕ) (xs : List ℝ) (hb : boundary ≤ xs.length) :
    ∀ j, j < boundary → xs.getD j 0 ≤ rowMax boundary xs := by
  intro j hj
  have hT : (xs.take boundary).length = boundary := by
    simp only [List.length_take]; omega
  have hjT : j < (xs.take boundary).length := by omega
  have hmem : xs.getD j 0 ∈ xs.take boundary := by
    rw [← getD_take xs boundary j 0 hj hb, List.getD_eq_getElem _ _ hjT]
    exact List.getElem_mem hjT
  exact foldl_max_le_of_mem (xs.take boundary) xs.headI _ hmem

lemma rowMax_attained (boundary : ℕ) (xs : List ℝ) (hb1 : 1 ≤ boundary)
    (hb : boundary ≤ xs.length) :
    ∃ j, j < boundary ∧ xs.getD j 0 = rowMax boundary xs := by
  have hx : xs ≠ [] := by
    intro h; rw [h] at hb; simp at hb; omega
  have hT : (xs.take boundary).length = boundary := by
    simp only [List.length_take]; omega
  rcases foldl_max_mem (xs.take boundary) xs.headI with heq | hmem
  · refine ⟨0, by omega, ?_⟩
    rw [rowMax, heq, headI_eq_getD xs hx]
  · rcases List.mem_iff_getElem.mp hmem with ⟨j, hjT, hjv⟩
    refine ⟨j, by omega, ?_⟩
    rw [← getD_take xs boundary j 0 (by omega) hb, List.getD_eq_getElem _ _ hjT, hjv]
    rfl

lemma maskedRow_visible (boundary : ℕ) (xs : List ℝ) (j : ℕ)
    (hj : j < boundary) (hb : boundary ≤ xs.length) :
    (maskedRow boundary xs).getD j 0
      = Real.exp (xs.getD j 0 - rowMax boundary xs) /
        ∑ l ∈ Finset.range boundary, Real.exp (xs.getD l 0 - rowMax boundary xs) := by
  have hjx : j < xs.length := by omega
  have hT : (xs.take boundary).length = boundary := by
    simp only [List.length_take]; omega
  have hsum : ((xs.take boundary).map
        (fun v => Real.exp (v - rowMax boundary xs))).sum
      = ∑ l ∈ Finset.range boundary,
          Real.exp (xs.getD l 0 - rowMax boundary xs) := by
    rw [sum_map_eq_finset_sum (xs.take boundary)
      (fun v => Real.exp (v - rowMax boundary xs)) 0, hT]
    exact Finset.sum_congr rfl (fun l hl => by
      rw [getD_take xs boundary l 0 (Finset.mem_range.mp hl) hb])
  unfold maskedRow
  rw [getD_map_range xs.length j _ 0 hjx, if_pos hj]
  simp only [hsum]

lemma maskedRow_masked (boundary : ℕ) (xs : List ℝ) (j : ℕ)
    (hj : boundary ≤ j) : (maskedRow boundary xs).getD j 0 = 0 := by
  by_cases hjx : j < xs.length
  · unfold maskedRow
    rw [getD_map_range xs.length j _ 0 hjx, if_neg (by omega)]
  · refine List.getD_eq_default _ _ ?_
    simp only [maskedRow, List.length_map, List.length_range]
    omega

lemma maskedRow_sum_one (boundary : ℕ) (xs : List ℝ) (hb1 : 1 ≤ boundary)
    (hb : boundary ≤ xs.length) :
    ∑ j ∈ Finset.range boundary, (maskedRow boundary xs).getD j 0 = 1 := by
  have hS : 0 < ∑ l ∈ Finset.range boundary,
      Real.exp (xs.getD l 0 - rowMax boundary xs) := by
    refine Finset.sum_pos (fun l _ => Real.exp_pos _) ?_
    exact Finset.nonempty_range_iff.mpr (by omega)
  have hcongr : ∀ j ∈ Finset.range boundary,
      (maskedRow boundary xs).getD j 0
        = Real.exp (xs.getD j 0 - rowMax boundary xs) /
          ∑ l ∈ Finset.range boundary, Real.exp (xs.getD l 0 - rowMax boundary xs) :=
    fun j hj => maskedRow_visible boundary xs j (Finset.mem_range.mp hj) hb
  rw [Finset.sum_congr rfl hcongr, ← Finset.sum_div]
  exact div_self (ne_of_gt hS)

/-- Claim C3: for a rank-2-or-more tensor flattened into
`batch * seq_len` rows of width `total_seq_len` (with
`total_seq_len ≥ seq_len`), after `masked_softmax` every batch `b`
and query row `i` has: a value `M` that is the maximum of the
original visible prefix `[0, boundary)` with
`boundary = total_seq_len - seq_len + i + 1`, every visible element
equal to `exp(x[j] - M)` divided by the sum `S` of those
exponentials over the prefix, every element at index `≥ boundary`
exactly `0.0`, and the visible prefix of the output summing exactly
to 1. -/
theorem masked_softmax_causal_rows (batch seqLen totLen : ℕ)
    (rows : List (List ℝ)) (hrowslen : rows.length = batch * seqLen)
    (hrows : ∀ r ∈ rows, r.length = totLen) (hst : seqLen ≤ totLen)
    (b i : ℕ) (hb : b < batch) (hi : i < seqLen) :
    ∃ M S,
      (∀ j, j < totLen - seqLen + i + 1 →
          (rows.getD (b * seqLen + i) []).getD j 0 ≤ M)
      ∧ (∃ j, j < totLen - seqLen + i + 1
          ∧ (rows.getD (b * seqLen + i) []).getD j 0 = M)
      ∧ S = ∑ l ∈ Finset.range (totLen - seqLen + i + 1),
          Real.exp ((rows.getD (b * seqLen + i) []).getD l 0 - M)
      ∧ (∀ j, j < totLen - seqLen + i + 1 →
          ((masked_softmax seqLen totLen rows).getD (b * seqLen + i) []).getD j 0
            = Real.exp ((rows.getD (b * seqLen + i) []).getD j 0 - M) / S)
      ∧ (∀ j, totLen - seqLen + i + 1 ≤ j →
          ((masked_softmax seqLen totLen rows).getD (b * seqLen + i) []).getD j 0
            = 0)
      ∧ ∑ j ∈ Finset.range (totLen - seqLen + i + 1),
          ((masked_softmax seqLen totLen rows).getD (b * seqLen + i) []).getD j 0
          = 1 := by
  set idx := b * seqLen + i with hidxdef
  set boundary := totLen - seqLen + i + 1 with hbdef
  have hidx : idx < rows.length := by
    rw [hrowslen]; exact cell_index_lt hb hi
  have hrow : rows.getD idx [] ∈ rows := by
    rw [List.getD_eq_getElem _ _ hidx]
    exact List.getElem_mem hidx
  have hrowlen : (rows.getD idx []).length = totLen := hrows _ hrow
  have hb1 : 1 ≤ boundary := by omega
  have hble : boundary ≤ (rows.getD idx []).length := by
    rw [hrowlen]; omega
  have hout : (masked_softmax seqLen totLen rows).getD idx []
      = maskedRow boundary (rows.getD idx []) := by
    unfold masked_softmax
    rw [getD_map_range rows.length idx _ [] hidx, hidxdef, cell_index_mod hi]
  refine ⟨rowMax boundary (rows.getD idx []),
    ∑ l ∈ Finset.range boundary,
      Real.exp ((rows.getD idx []).getD l 0 - rowMax boundary (rows.getD idx [])),
    rowMax_is_ub boundary _ hble,
    rowMax_attained boundary _ hb1 hble, rfl, ?_, ?_, ?_⟩
  · intro j hj
    rw [hout]
    exact maskedRow_visible boundary _ j hj hble
  · intro j hj
    rw [hout]
    exact maskedRow_masked boundary _ j hj
  · rw [hout]
    exact maskedRow_sum_one boundary _ hb1 hble

/-- Witness for C3: one batch, `seq_len = 1`, `total_seq_len = 2`,
single row `[0, 0]` (boundary 2: both positions visible). -/
theorem masked_softmax_causal_rows_witness :
    ∃ M S,
      (∀ j, j < 2 - 1 + 0 + 1 →
          (([[0, 0]] : List (List ℝ)).getD (0 * 1 + 0) []).getD j 0 ≤ M)
      ∧ (∃ j, j < 2 - 1 + 0 + 1
          ∧ (([[0, 0]] : List (List ℝ)).getD (0 * 1 + 0) []).getD j 0 = M)
      ∧ S = ∑ l ∈ Finset.range (2 - 1 + 0 + 1),
          Real.exp ((([[0, 0]] : List (List ℝ)).getD (0 * 1 + 0) []).getD l 0 - M)
      ∧ (∀ j, j < 2 - 1 + 0 + 1 →
          ((masked_softmax 1 2 [[0, 0]]).getD (0 * 1 + 0) []).getD j 0
            = Real.exp ((([[0, 0]] : List (List ℝ)).getD (0 * 1 + 0) []).getD j 0
                - M) / S)
      ∧ (∀ j, 2 - 1 + 0 + 1 ≤ j →
          ((masked_softmax 1 2 [[0, 0]]).getD (0 * 1 + 0) []).getD j 0 = 0)
      ∧ ∑ j ∈ Finset.range (2 - 1 + 0 + 1),
          ((masked_softmax 1 2 [[0, 0]]).getD (0 * 1 + 0) []).getD j 0 = 1 :=
  masked_softmax_causal_rows 1 1 2 [[0, 0]] (by simp) (by simp) (by omega)
    0 0 (by decide) (by decide)

/-! ## random_sample -/

/-- The tagged pair of the source: a logit value with its original
token index. -/
structure Probability where
  val : ℝ
  tok : ℕ

/-- The total order of the source `Ord` impl: descending by value
(`total_cmp` reversed), ties broken by ascending token index. `ple p q`
says `p` sorts at or before `q`. -/
def ple (p q : Probability) : Prop :=
  q.val < p.val ∨ (p.val = q.val ∧ p.tok ≤ q.tok)

noncomputable instance : DecidableRel ple := fun _ _ => Classical.propDecidable _

instance : IsTrans Probability ple where
  trans := by
    intro a b c hab hbc
    rcases hab with h1 | ⟨h1, h1t⟩ <;> rcases hbc with h2 | ⟨h2, h2t⟩
    · exact Or.inl (lt_trans h2 h1)
    · exact Or.inl (h2 ▸ h1)
    · exact Or.inl (by rw [h1]; exact h2)
    · exact Or.inr ⟨h1.trans h2, le_trans h1t h2t⟩

instance : IsTotal Probability ple where
  total := by
    intro a b
    rcases lt_trichotomy a.val b.val with h | h | h
    · exact Or.inr (Or.inl h)
    · rcases Nat.le_total a.tok b.tok with ht | ht
      · exact Or.inl (Or.inr ⟨h, ht⟩)
      · exact Or.inr (Or.inr ⟨h.symm, ht⟩)
    · exact Or.inl (Or.inl h)

/-- One step of the greedy path: the fold of `Iterator::max_by`,
which keeps the LATER element when the comparison is not strictly in
favour of the accumulator (Rust `cmp::max_by` returns its second
argument on `Equal`). -/
noncomputable def maxByStep (acc : Option (ℕ × ℝ)) (p : ℕ × ℝ) : Option (ℕ × ℝ) :=
  match acc with
  | none => some p
  | some q => if p.2 < q.2 then some q else some p

/-- The greedy path of `random_sample`:
`x.iter().enumerate().max_by(..).unwrap().0`. -/
noncomputable def argmaxLast (x : List ℝ) : ℕ :=
  ((x.enum.foldl maxByStep none).getD (0, 0)).1

/-- The enumerated logits of the source before sorting. -/
def probs (x : List ℝ) : List Probability :=
  x.enum.map (fun p => ⟨p.2, p.1⟩)

/-- Sorting step `logits.sort_unstable()` of the source: sorting by the total
order `ple`. The token indices are pairwise distinct, so every
correct sort produces this one sorted permutation. -/
noncomputable def sortedProbs (x : List ℝ) : List Probability :=
  List.insertionSort ple (probs x)

/-- The cumulative loop
`logits[i].val = logits[i-1].val + ((logits[i].val - max) / temperature).exp()`
from the second element on. -/
noncomputable def cumFrom (maxv temperature : ℝ) : ℝ → List Probability → List Probability
  | _, [] => []
  | prev, p :: rest =>
      ⟨prev + Real.exp ((p.val - maxv) / temperature), p.tok⟩ ::
        cumFrom maxv temperature (prev + Real.exp ((p.val - maxv) / temperature)) rest

/-- The whole cumulative pass: `max` is the first (largest) value,
whose slot is overwritten with the seed `1.0`
(`core::mem::replace(&mut logits[0].val, 1.)`). -/
noncomputable def cumProbs (temperature : ℝ) : List Probability → List Probability
  | [] => []
  | p :: rest => ⟨1, p.tok⟩ :: cumFrom p.val temperature 1 rest

/-- Search step `logits.iter().find(|p| p.val >= plimit)` of the source. -/
noncomputable def findFirst (plimit : ℝ) : List Probability → Option Probability
  | [] => none
  | p :: rest => if plimit ≤ p.val then some p else findFirst plimit rest

/-- Kernel `random_sample`, as a function of the uniform draw
`r = rand::random::<f32>()` in `[0,1)`. Degenerate path when
`temperature <= 0 || top_k < 2 || top_p <= 0`; otherwise sort, build
the cumulative sums, truncate by `top_k` and `top_p`, scale `r`, and
return the first token whose cumulative value reaches the limit. -/
noncomputable def random_sample (x : List ℝ) (top_p : ℝ) (top_k : ℕ)
    (temperature r : ℝ) : ℕ :=
  if temperature ≤ 0 ∨ top_k < 2 ∨ top_p ≤ 0 then argmaxLast x
  else
    let cum := cumProbs temperature (sortedProbs x)
    let pk := (cum.getD (min top_k cum.length - 1) ⟨0, 0⟩).val
    let pp := (cum.getD (cum.length - 1) ⟨0, 0⟩).val * top_p
    let plimit := r * min pk pp
    ((findFirst plimit cum).getD ⟨0, 0⟩).tok

lemma foldl_maxByStep_spec (x : List ℝ) :
    ∀ (n i0 : ℕ) (v0 : ℝ), i0 < n →
      ∃ i v, (List.enumFrom n x).foldl maxByStep (some (i0, v0)) = some (i, v)
        ∧ (i = i0 ∧ v = v0 ∨ ∃ j, j < x.length ∧ i = n + j ∧ v = x.getD j 0)
        ∧ v0 ≤ v
        ∧ (∀ j, j < x.length → x.getD j 0 ≤ v)
        ∧ (∀ j, j < x.length → i < n + j → x.getD j 0 < v)
        ∧ i < n + x.length := by
  induction x with
  | nil =>
      intro n i0 v0 hlt
      exact ⟨i0, v0, rfl, Or.inl ⟨rfl, rfl⟩, le_refl _,
        fun j hj => absurd hj (by simp),
        fun j hj => absurd hj (by simp), by simpa using hlt⟩
  | cons a t ih =>
      intro n i0 v0 hlt
      rw [List.enumFrom_cons, List.foldl_cons]
      by_cases hav : a < v0
      · have hstep : maxByStep (some (i0, v0)) (n, a) = some (i0, v0) := by
          simp only [maxByStep]
          rw [if_pos hav]
        rw [hstep]
        rcases ih (n + 1) i0 v0 (by omega) with
          ⟨i, v, heq, hmem, hv0, hub, hstrict, hilt⟩
        refine ⟨i, v, heq, ?_, hv0, ?_, ?_, by simp; omega⟩
        · rcases hmem with ⟨hi, hv⟩ | ⟨j, hj, hi, hv⟩
          · exact Or.inl ⟨hi, hv⟩
          · exact Or.inr ⟨j + 1, by simpa using hj, by omega, by simpa using hv⟩
        · intro j hj
          match j with
          | 0 => exact le_of_lt (lt_of_lt_of_le hav hv0)
          | Nat.succ j =>
              have : j < t.length := by simpa using hj
              simpa using hub j this
        · intro j hj hij
          match j with
          | 0 => simpa using lt_of_lt_of_le hav hv0
          | Nat.succ j =>
              have hjt : j < t.length := by simpa using hj
              simpa using hstrict j hjt (by omega)
      · have hstep : maxByStep (some (i0, v0)) (n, a) = some (n, a) := by
          simp only [maxByStep]
          rw [if_neg hav]
        rw [hstep]
        rcases ih (n + 1) n a (by omega) with
          ⟨i, v, heq, hmem, hv0, hub, hstrict, hilt⟩
        have hni : n ≤ i := by
          rcases hmem with ⟨hi, _⟩ | ⟨j, _, hi, _⟩ <;> omega
        refine ⟨i, v, heq, ?_, le_trans (not_lt.mp hav) hv0, ?_, ?_, by simp; omega⟩
        · rcases hmem with ⟨hi, hv⟩ | ⟨j, hj, hi, hv⟩
          · exact Or.inr ⟨0, by simp, by omega, by simpa using hv⟩
          · exact Or.inr ⟨j + 1, by simpa using hj, by omega, by simpa using hv⟩
        · intro j hj
          match j with
          | 0 => simpa using hv0
          | Nat.succ j =>
              have : j < t.length := by simpa using hj
              simpa using hub j this
        · intro j hj hij
          match j with
          | 0 => omega
          | Nat.succ j =>
              have hjt : j < t.length := by simpa using hj
              simpa using hstrict j hjt (by omega)

/-- Claim C2 (amended): on the degenerate path
(`temperature <= 0 || top_k < 2 || top_p <= 0`), `random_sample`
returns an index of the maximum logit, and among equal maxima it is
the LAST index in iteration order (every strictly later index holds a
strictly smaller logit), because `Iterator::max_by` keeps the later
element on ties. -/
theorem random_sample_degenerate_greedy (x : List ℝ) (top_p : ℝ) (top_k : ℕ)
    (temperature r : ℝ) (hx : x ≠ [])
    (hdeg : temperature ≤ 0 ∨ top_k < 2 ∨ top_p ≤ 0) :
    random_sample x top_p top_k temperature r < x.length
      ∧ (∀ j, j < x.length →
          x.getD j 0 ≤ x.getD (random_sample x top_p top_k temperature r) 0)
      ∧ ∀ j, random_sample x top_p top_k temperature r < j → j < x.length →
          x.getD j 0 < x.getD (random_sample x top_p top_k temperature r) 0 := by
  have hrs : random_sample x top_p top_k temperature r = argmaxLast x := by
    unfold random_sample
    rw [if_pos hdeg]
  rw [hrs]
  match x, hx with
  | a :: t, _ =>
      rcases foldl_maxByStep_spec t 1 0 a (by omega) with
        ⟨i, v, heq, hmem, hv0, hub, hstrict, hilt⟩
      have hfold : (a :: t).enum.foldl maxByStep none = some (i, v) := by
        rw [List.enum_cons, List.foldl_cons]
        exact heq
      have hargmax : argmaxLast (a :: t) = i := by
        unfold argmaxLast
        rw [hfold]
        rfl
      have hvi : (a :: t).getD i 0 = v := by
        rcases hmem with ⟨hi, hv⟩ | ⟨j, hj, hi, hv⟩
        · rw [hi, hv]; rfl
        · rw [hi, hv]
          have : (1 : ℕ) + j = j + 1 := by omega
          rw [this]
          rfl
      rw [hargmax]
      refine ⟨by simp only [List.length_cons]; omega, ?_, ?_⟩
      · intro j hj
        rw [hvi]
        match j with
        | 0 => exact hv0
        | Nat.succ j =>
            have : j < t.length := by simpa using hj
            simpa using hub j this
      · intro j hij hj
        rw [hvi]
        match j with
        | 0 => omega
        | Nat.succ j =>
            have hjt : j < t.length := by simpa using hj
            simpa using hstrict j hjt (by omega)

/-- Witness for C2 (amended) at `x = [5, 7, 7, 2]` on the
`temperature = 0` degenerate path. -/
theorem random_sample_degenerate_greedy_witness :
    random_sample [5, 7, 7, 2] 1 1 0 0 < ([5, 7, 7, 2] : List ℝ).length
      ∧ (∀ j, j < ([5, 7, 7, 2] : List ℝ).length →
          ([5, 7, 7, 2] : List ℝ).getD j 0
            ≤ ([5, 7, 7, 2] : List ℝ).getD (random_sample [5, 7, 7, 2] 1 1 0 0) 0)
      ∧ ∀ j, random_sample [5, 7, 7, 2] 1 1 0 0 < j →
          j < ([5, 7, 7, 2] : List ℝ).length →
          ([5, 7, 7, 2] : List ℝ).getD j 0
            < ([5, 7, 7, 2] : List ℝ).getD (random_sample [5, 7, 7, 2] 1 1 0 0) 0 :=
  random_sample_degenerate_greedy [5, 7, 7, 2] 1 1 0 0 (by simp)
    (Or.inl (le_refl 0))

/-- Claim C2 counterexample: with the tied logits `[1, 1]` on the
degenerate path, `random_sample` returns index 1, the LAST maximal
index, not the first occurrence (index 0) stated by the claim. -/
theorem random_sample_tie_returns_last :
    random_sample [1, 1] 1 1 0 0 = 1 := by
  unfold random_sample
  rw [if_pos (Or.inl (le_refl 0))]
  unfold argmaxLast
  have h1 : ([1, 1] : List ℝ).enum = [(0, 1), (1, 1)] := rfl
  rw [h1, List.foldl_cons, List.foldl_cons]
  have h2 : maxByStep none (0, (1 : ℝ)) = some (0, 1) := rfl
  rw [h2]
  have h3 : maxByStep (some (0, (1 : ℝ))) (1, 1) = some (1, 1) := by
    simp only [maxByStep]
    rw [if_neg (lt_irrefl (1 : ℝ))]
  rw [h3]
  rfl

/-- Index of the first list element at least `t` (list length when
there is none). -/
noncomputable def firstIdxGE (t : ℝ) : List ℝ → ℕ
  | [] => 0
  | v :: rest => if t ≤ v then 0 else firstIdxGE t rest + 1

/-- The cumulative-mass list of the stochastic path: the values of
the sorted probabilities after the in-place cumulative pass. -/
noncomputable def cumMass (x : List ℝ) (temperature : ℝ) : List ℝ :=
  (cumProbs temperature (sortedProbs x)).map Probability.val

/-- Modelled from the spec: the nucleus (top-p) set — absent from the
code as a named entity — is, per the glossary, the smallest prefix of
the descending-probability order whose cumulative probability mass
reaches `p`; here in unnormalised form, the smallest prefix whose
cumulative value reaches `top_p` times the total mass. Its size is
one more than the index of the first cumulative value at least
`total * top_p`. -/
noncomputable def nucleusSize (x : List ℝ) (top_p temperature : ℝ) : ℕ :=
  firstIdxGE ((cumMass x temperature).getD ((cumMass x temperature).length - 1) 0
      * top_p) (cumMass x temperature) + 1

lemma cumFrom_map_tok (maxv temperature : ℝ) :
    ∀ (prev : ℝ) (l : List Probability),
      (cumFrom maxv temperature prev l).map Probability.tok
        = l.map Probability.tok := by
  intro prev l
  induction l generalizing prev with
  | nil => rfl
  | cons p rest ih => simp [cumFrom, ih]

lemma cumProbs_map_tok (temperature : ℝ) (l : List Probability) :
    (cumProbs temperature l).map Probability.tok = l.map Probability.tok := by
  cases l with
  | nil => rfl
  | cons p rest => simp [cumProbs, cumFrom_map_tok]

lemma cumProbs_length (temperature : ℝ) (l : List Probability) :
    (cumProbs temperature l).length = l.length := by
  have := congrArg List.length (cumProbs_map_tok temperature l)
  simpa using this

lemma cumFrom_mem_gt (maxv temperature : ℝ) :
    ∀ (prev : ℝ) (l : List Probability) (q : Probability),
      q ∈ cumFrom maxv temperature prev l → prev < q.val := by
  intro prev l
  induction l generalizing prev with
  | nil => intro q hq; simp [cumFrom] at hq
  | cons p rest ih =>
      intro q hq
      rcases List.mem_cons.mp hq with rfl | hq2
      · have := Real.exp_pos ((p.val - maxv) / temperature)
        simp only []
        linarith
      · have h1 := ih (prev + Real.exp ((p.val - maxv) / temperature)) q hq2
        have := Real.exp_pos ((p.val - maxv) / temperature)
        linarith

lemma cumFrom_pairwise (maxv temperature : ℝ) :
    ∀ (prev : ℝ) (l : List Probability),
      (cumFrom maxv temperature prev l).Pairwise (fun p q => p.val < q.val) := by
  intro prev l
  induction l generalizing prev with
  | nil => simp [cumFrom]
  | cons p rest ih =>
      refine List.pairwise_cons.mpr ⟨?_, ih _⟩
      intro q hq
      exact cumFrom_mem_gt maxv temperature _ rest q hq

lemma cumProbs_pairwise (temperature : ℝ) (l : List Probability) :
    (cumProbs temperature l).Pairwise (fun p q => p.val < q.val) := by
  cases l with
  | nil => simp [cumProbs]
  | cons p rest =>
      refine List.pairwise_cons.mpr ⟨?_, cumFrom_pairwise _ _ _ _⟩
      intro q hq
      exact cumFrom_mem_gt p.val temperature 1 rest q hq

lemma getD_map_val (cum : List Probability) (j : ℕ) (hj : j < cum.length) :
    (cum.map Probability.val).getD j 0 = (cum.getD j ⟨0, 0⟩).val := by
  have hjm : j < (cum.map Probability.val).length := by simpa using hj
  rw [List.getD_eq_getElem _ _ hjm, List.getD_eq_getElem _ _ hj, List.getElem_map]

lemma getD_map_tok (cum : List Probability) (j : ℕ) (hj : j < cum.length) :
    (cum.map Probability.tok).getD j 0 = (cum.getD j ⟨0, 0⟩).tok := by
  have hjm : j < (cum.map Probability.tok).length := by simpa using hj
  rw [List.getD_eq_getElem _ _ hjm, List.getD_eq_getElem _ _ hj, List.getElem_map]

lemma cumMass_mono (x : List ℝ) (temperature : ℝ) (a b : ℕ)
    (hab : a ≤ b) (hb : b < (cumMass x temperature).length) :
    (cumMass x temperature).getD a 0 ≤ (cumMass x temperature).getD b 0 := by
  have ha : a < (cumMass x temperature).length := by omega
  rcases Nat.lt_or_ge a b with hlt | hge
  · have hpw : (cumMass x temperature).Pairwise (fun u v => u < v) := by
      have := cumProbs_pairwise temperature (sortedProbs x)
      exact List.Pairwise.map Probability.val (fun p q h => h) this
    rw [List.getD_eq_getElem _ _ ha, List.getD_eq_getElem _ _ hb]
    exact le_of_lt (List.pairwise_iff_getElem.mp hpw a b ha hb hlt)
  · have : a = b := by omega
    rw [this]

lemma firstIdxGE_le_of_ge :
    ∀ (l : List ℝ) (t : ℝ) (j : ℕ), j < l.length → t ≤ l.getD j 0 →
      firstIdxGE t l ≤ j := by
  intro l
  induction l with
  | nil => intro t j hj; simp at hj
  | cons v rest ih =>
      intro t j hj hge
      by_cases htv : t ≤ v
      · unfold firstIdxGE
        rw [if_pos htv]
        omega
      · match j with
        | 0 => exact absurd hge htv
        | Nat.succ j =>
            unfold firstIdxGE
            rw [if_neg htv]
            have hj2 : j < rest.length := by simpa using hj
            have := ih t j hj2 hge
            omega

lemma firstIdxGE_mono (t1 t2 : ℝ) (h : t1 ≤ t2) :
    ∀ l : List ℝ, firstIdxGE t1 l ≤ firstIdxGE t2 l := by
  intro l
  induction l with
  | nil => simp [firstIdxGE]
  | cons v rest ih =>
      by_cases h1 : t1 ≤ v
      · unfold firstIdxGE
        rw [if_pos h1]
        omega
      · have h2 : ¬ t2 ≤ v := fun hc => h1 (le_trans h hc)
        unfold firstIdxGE
        rw [if_neg h1, if_neg h2]
        omega

lemma findFirst_eq_getD :
    ∀ (cum : List Probability) (t : ℝ),
      firstIdxGE t (cum.map Probability.val) < cum.length →
      findFirst t cum
        = some (cum.getD (firstIdxGE t (cum.map Probability.val)) ⟨0, 0⟩) := by
  intro cum
  induction cum with
  | nil => intro t h; simp at h
  | cons p rest ih =>
      intro t h
      by_cases htp : t ≤ p.val
      · have h0 : firstIdxGE t ((p :: rest).map Probability.val) = 0 := by
          simp only [List.map_cons]
          unfold firstIdxGE
          rw [if_pos htp]
        rw [h0]
        unfold findFirst
        rw [if_pos htp]
        rfl
      · have h1 : firstIdxGE t ((p :: rest).map Probability.val)
            = firstIdxGE t (rest.map Probability.val) + 1 := by
          simp only [List.map_cons]
          show (if t ≤ p.val then 0 else firstIdxGE t (rest.map Probability.val) + 1)
            = firstIdxGE t (rest.map Probability.val) + 1
          rw [if_neg htp]
        rw [h1]
        unfold findFirst
        rw [if_neg htp]
        have h2 : firstIdxGE t (rest.map Probability.val) < rest.length := by
          rw [h1] at h
          simp only [List.length_cons] at h
          omega
        rw [ih t h2]
        rfl

lemma random_sample_stochastic_eq (x : List ℝ) (top_p : ℝ) (top_k : ℕ)
    (temperature r : ℝ) (hnd : ¬ (temperature ≤ 0 ∨ top_k < 2 ∨ top_p ≤ 0)) :
    random_sample x top_p top_k temperature r
      = ((findFirst
            (r * min
              ((cumProbs temperature (sortedProbs x)).getD
                (min top_k (cumProbs temperature (sortedProbs x)).length - 1)
                ⟨0, 0⟩).val
              (((cumProbs temperature (sortedProbs x)).getD
                ((cumProbs temperature (sortedProbs x)).length - 1) ⟨0, 0⟩).val
                * top_p))
            (cumProbs temperature (sortedProbs x))).getD ⟨0, 0⟩).tok := by
  unfold random_sample
  rw [if_neg hnd]

lemma tok_mem_take (sorted : List Probability) (i m : ℕ) (him : i < m)
    (hm : m ≤ sorted.length) :
    (sorted.getD i ⟨0, 0⟩).tok ∈ (sorted.take m).map Probability.tok := by
  have hil : i < sorted.length := by omega
  have hit : i < (sorted.take m).length := by
    simp only [List.length_take]; omega
  refine List.mem_map.mpr ⟨(sorted.take m).get ⟨i, hit⟩, List.get_mem _ _ hit, ?_⟩
  rw [List.getD_eq_getElem _ _ hil]
  show ((sorted.take m)[i]).tok = (sorted[i]).tok
  rw [List.getElem_take]

/-- Claim C4 (amended): on the stochastic path (`temperature > 0`,
`top_k >= 2`, `top_p > 0`, here with `top_p <= 1` as §4.8 requires),
for every logits vector and every uniform draw `r` in `[0,1)`, the
returned token lies in the top-k prefix (the `min(top_k, n)` first
elements of the list sorted by descending value with ascending-index
tie-break) and in the nucleus: the smallest prefix of that order
whose cumulative temperature-scaled mass reaches `top_p` times the
total mass (the glossary definition); it is never outside either
truncation. -/
theorem random_sample_stochastic_truncation (x : List ℝ) (top_p : ℝ)
    (top_k : ℕ) (temperature r : ℝ) (hx : x ≠ []) (hT : 0 < temperature)
    (hk : 2 ≤ top_k) (hp0 : 0 < top_p) (hp1 : top_p ≤ 1)
    (_hr0 : 0 ≤ r) (hr1 : r < 1) :
    List.Sorted ple (sortedProbs x)
      ∧ (sortedProbs x).Perm (probs x)
      ∧ nucleusSize x top_p temperature ≤ x.length
      ∧ random_sample x top_p top_k temperature r
          ∈ ((sortedProbs x).take (min top_k x.length)).map Probability.tok
      ∧ random_sample x top_p top_k temperature r
          ∈ ((sortedProbs x).take (nucleusSize x top_p temperature)).map
              Probability.tok := by
  have hnd : ¬ (temperature ≤ 0 ∨ top_k < 2 ∨ top_p ≤ 0) := by
    push_neg
    exact ⟨hT, by omega, hp0⟩
  have hxlen : 0 < x.length := List.length_pos.mpr hx
  have hsl : (sortedProbs x).length = x.length := by
    unfold sortedProbs
    rw [List.length_insertionSort]
    simp [probs]
  have hcl : (cumProbs temperature (sortedProbs x)).length = x.length := by
    rw [cumProbs_length, hsl]
  have hcmlen : (cumMass x temperature).length = x.length := by
    unfold cumMass
    simp [hcl]
  have hbridge : ∀ j, j < x.length →
      (cumMass x temperature).getD j 0
        = ((cumProbs temperature (sortedProbs x)).getD j ⟨0, 0⟩).val := by
    intro j hj
    exact getD_map_val _ j (by rw [hcl]; exact hj)
  have hk1lt : min top_k x.length - 1 < x.length := by
    have h1 : min top_k x.length ≤ x.length := min_le_right _ _
    omega
  have hcv0 : (cumMass x temperature).getD 0 0 = 1 := by
    have hsne : sortedProbs x ≠ [] := by
      intro h
      rw [h] at hsl
      simp at hsl
      omega
    obtain ⟨p, rest, hps⟩ := List.exists_cons_of_ne_nil hsne
    unfold cumMass
    rw [hps]
    rfl
  have hpk_ge1 : (1 : ℝ) ≤ (cumMass x temperature).getD (min top_k x.length - 1) 0 := by
    rw [← hcv0]
    exact cumMass_mono x temperature 0 _ (by omega) (by rw [hcmlen]; exact hk1lt)
  have htot_ge_pk : (cumMass x temperature).getD (min top_k x.length - 1) 0
      ≤ (cumMass x temperature).getD (x.length - 1) 0 :=
    cumMass_mono x temperature _ _ (by omega) (by rw [hcmlen]; omega)
  have htot_pos : (0 : ℝ) < (cumMass x temperature).getD (x.length - 1) 0 :=
    lt_of_lt_of_le one_pos (le_trans hpk_ge1 htot_ge_pk)
  have hpp_pos : (0 : ℝ) < (cumMass x temperature).getD (x.length - 1) 0 * top_p :=
    mul_pos htot_pos hp0
  have hpp_le_tot : (cumMass x temperature).getD (x.length - 1) 0 * top_p
      ≤ (cumMass x temperature).getD (x.length - 1) 0 :=
    mul_le_of_le_one_right (le_of_lt htot_pos) hp1
  have hmin_pos : (0 : ℝ) < min ((cumMass x temperature).getD (min top_k x.length - 1) 0)
      ((cumMass x temperature).getD (x.length - 1) 0 * top_p) :=
    lt_min (lt_of_lt_of_le one_pos hpk_ge1) hpp_pos
  have hplim_lt : r * min ((cumMass x temperature).getD (min top_k x.length - 1) 0)
        ((cumMass x temperature).getD (x.length - 1) 0 * top_p)
      < min ((cumMass x temperature).getD (min top_k x.length - 1) 0)
        ((cumMass x temperature).getD (x.length - 1) 0 * top_p) :=
    mul_lt_of_lt_one_left hmin_pos hr1
  have hplim_le_pk : r * min ((cumMass x temperature).getD (min top_k x.length - 1) 0)
        ((cumMass x temperature).getD (x.length - 1) 0 * top_p)
      ≤ (cumMass x temperature).getD (min top_k x.length - 1) 0 :=
    le_of_lt (lt_of_lt_of_le hplim_lt (min_le_left _ _))
  have hplim_le_pp : r * min ((cumMass x temperature).getD (min top_k x.length - 1) 0)
        ((cumMass x temperature).getD (x.length - 1) 0 * top_p)
      ≤ (cumMass x temperature).getD (x.length - 1) 0 * top_p :=
    le_of_lt (lt_of_lt_of_le hplim_lt (min_le_right _ _))
  have hplim_le_tot : r * min ((cumMass x temperature).getD (min top_k x.length - 1) 0)
        ((cumMass x temperature).getD (x.length - 1) 0 * top_p)
      ≤ (cumMass x temperature).getD (x.length - 1) 0 :=
    le_trans hplim_le_pk htot_ge_pk
  have histar_le : firstIdxGE (r * min
        ((cumMass x temperature).getD (min top_k x.length - 1) 0)
        ((cumMass x temperature).getD (x.length - 1) 0 * top_p))
        (cumMass x temperature) ≤ x.length - 1 :=
    firstIdxGE_le_of_ge (cumMass x temperature) _ (x.length - 1)
      (by rw [hcmlen]; omega) hplim_le_tot
  have histar_lt_N : firstIdxGE (r * min
        ((cumMass x temperature).getD (min top_k x.length - 1) 0)
        ((cumMass x temperature).getD (x.length - 1) 0 * top_p))
        (cumMass x temperature) < x.length := by omega
  have histar_topk : firstIdxGE (r * min
        ((cumMass x temperature).getD (min top_k x.length - 1) 0)
        ((cumMass x temperature).getD (x.length - 1) 0 * top_p))
        (cumMass x temperature) ≤ min top_k x.length - 1 :=
    firstIdxGE_le_of_ge (cumMass x temperature) _ _
      (by rw [hcmlen]; exact hk1lt) hplim_le_pk
  have histar_nucleus : firstIdxGE (r * min
        ((cumMass x temperature).getD (min top_k x.length - 1) 0)
        ((cumMass x temperature).getD (x.length - 1) 0 * top_p))
        (cumMass x temperature)
      ≤ firstIdxGE ((cumMass x temperature).getD (x.length - 1) 0 * top_p)
        (cumMass x temperature) :=
    firstIdxGE_mono _ _ hplim_le_pp _
  have hj0 : firstIdxGE ((cumMass x temperature).getD (x.length - 1) 0 * top_p)
      (cumMass x temperature) ≤ x.length - 1 :=
    firstIdxGE_le_of_ge (cumMass x temperature) _ (x.length - 1)
      (by rw [hcmlen]; omega) hpp_le_tot
  have hnuc : nucleusSize x top_p temperature
      = firstIdxGE ((cumMass x temperature).getD (x.length - 1) 0 * top_p)
        (cumMass x temperature) + 1 := by
    unfold nucleusSize
    rw [hcmlen]
  have hres : random_sample x top_p top_k temperature r
      = ((cumProbs temperature (sortedProbs x)).getD
          (firstIdxGE (r * min
            ((cumMass x temperature).getD (min top_k x.length - 1) 0)
            ((cumMass x temperature).getD (x.length - 1) 0 * top_p))
            (cumMass x temperature)) ⟨0, 0⟩).tok := by
    rw [random_sample_stochastic_eq x top_p top_k temperature r hnd]
    have hA : ((cumProbs temperature (sortedProbs x)).getD
        (min top_k (cumProbs temperature (sortedProbs x)).length - 1) ⟨0, 0⟩).val
        = (cumMass x temperature).getD (min top_k x.length - 1) 0 := by
      rw [hcl]
      exact (hbridge _ hk1lt).symm
    have hB : ((cumProbs temperature (sortedProbs x)).getD
        ((cumProbs temperature (sortedProbs x)).length - 1) ⟨0, 0⟩).val
        = (cumMass x temperature).getD (x.length - 1) 0 := by
      rw [hcl]
      exact (hbridge _ (by omega)).symm
    rw [hA, hB]
    rw [findFirst_eq_getD (cumProbs temperature (sortedProbs x)) _
      (by rw [hcl]; exact histar_lt_N)]
    rfl
  have htok : ((cumProbs temperature (sortedProbs x)).getD
      (firstIdxGE (r * min
        ((cumMass x temperature).getD (min top_k x.length - 1) 0)
        ((cumMass x temperature).getD (x.length - 1) 0 * top_p))
        (cumMass x temperature)) ⟨0, 0⟩).tok
      = ((sortedProbs x).getD
          (firstIdxGE (r * min
            ((cumMass x temperature).getD (min top_k x.length - 1) 0)
            ((cumMass x temperature).getD (x.length - 1) 0 * top_p))
            (cumMass x temperature)) ⟨0, 0⟩).tok := by
    rw [← getD_map_tok _ _ (by rw [hcl]; exact histar_lt_N),
      ← getD_map_tok _ _ (by rw [hsl]; exact histar_lt_N),
      cumProbs_map_tok]
  refine ⟨List.sorted_insertionSort ple (probs x),
    List.perm_insertionSort ple (probs x), by omega, ?_, ?_⟩
  · rw [hres, htok]
    refine tok_mem_take (sortedProbs x) _ (min top_k x.length) ?_ ?_
    · have h1 : 1 ≤ min top_k x.length := le_min (by omega) hxlen
      omega
    · rw [hsl]
      exact min_le_right _ _
  · rw [hres, htok]
    refine tok_mem_take (sortedProbs x) _ (nucleusSize x top_p temperature) ?_ ?_
    · omega
    · rw [hsl]
      omega

/-- Witness for C4 (amended) at `x = [2, 1]`, `top_p = 1`,
`top_k = 2`, `temperature = 1`, `r = 0`. -/
theorem random_sample_stochastic_truncation_witness :
    List.Sorted ple (sortedProbs [2, 1])
      ∧ (sortedProbs [2, 1]).Perm (probs [2, 1])
      ∧ nucleusSize [2, 1] 1 1 ≤ ([2, 1] : List ℝ).length
      ∧ random_sample [2, 1] 1 2 1 0
          ∈ ((sortedProbs [2, 1]).take (min 2 ([2, 1] : List ℝ).length)).map
              Probability.tok
      ∧ random_sample [2, 1] 1 2 1 0
          ∈ ((sortedProbs [2, 1]).take (nucleusSize [2, 1] 1 1)).map
              Probability.tok :=
  random_sample_stochastic_truncation [2, 1] 1 2 1 0 (by simp) (by norm_num)
    (le_refl 2) (by norm_num) (le_refl 1) (le_refl 0) (by norm_num)

/-- Claim C4 counterexample: with logits `[0, -100]`, `top_p = 1/2`,
`top_k = 2`, `temperature = 1` and draw `r = 0`, the sampler returns
token 0, which sits at sorted position 0; but already the first
cumulative mass (`cumMass.getD 0 = 1`) strictly exceeds
`top_p * total mass`, so NO prefix has cumulative mass at most
`top_p` times the total — the "set whose cumulative mass is at most
top_p times the total mass" is empty and cannot contain the returned
token. The inclusive (glossary) nucleus does contain it. -/
theorem random_sample_nucleus_literal_cex :
    random_sample [0, -100] (1/2) 2 1 0 = 0
      ∧ (sortedProbs [0, -100]).map Probability.tok = [0, 1]
      ∧ (cumMass [0, -100] 1).getD 1 0 * (1/2) < (cumMass [0, -100] 1).getD 0 0 := by
  have hple : ple ⟨0, 0⟩ ⟨-100, 1⟩ := Or.inl (by norm_num)
  have hsort : sortedProbs [0, -100] = [⟨0, 0⟩, ⟨-100, 1⟩] := by
    unfold sortedProbs
    have hp : probs [(0 : ℝ), -100] = [⟨0, 0⟩, ⟨-100, 1⟩] := rfl
    rw [hp]
    simp only [List.insertionSort, List.orderedInsert]
    rw [if_pos hple]
  have hcum : cumProbs 1 (sortedProbs [0, -100])
      = [⟨1, 0⟩, ⟨1 + Real.exp ((-100 - 0) / 1), 1⟩] := by
    rw [hsort]
    rfl
  have hexp : Real.exp ((-100 - 0) / 1) < 1 := by
    rw [Real.exp_lt_one_iff]
    norm_num
  refine ⟨?_, ?_, ?_⟩
  · rw [random_sample_stochastic_eq [0, -100] (1/2) 2 1 0
      (by push_neg; refine ⟨by norm_num, by omega, by norm_num⟩)]
    rw [hcum]
    have hff : findFirst 0 [⟨1, 0⟩, ⟨1 + Real.exp ((-100 - 0) / 1), 1⟩]
        = some ⟨1, 0⟩ := by
      unfold findFirst
      rw [if_pos (by norm_num : (0 : ℝ) ≤ (Probability.mk 1 0).val)]
    simp only [zero_mul]
    rw [hff]
    rfl
  · rw [hsort]
    rfl
  · unfold cumMass
    rw [hcum]
    simp only [List.map_cons, List.map_nil, List.getD]
    show (1 + Real.exp ((-100 - 0) / 1)) * (1 / 2) < 1
    linarith
